import Mathlib

/-!
Verification development for the SMAP speech-to-text worker pipeline.

This file shallowly embeds the pipeline components that the specification
talks about, translated from the Python sources:

* `src/worker/chunking.py`  (`AudioChunker`): silence-based and fixed-duration
  chunking, long-chunk splitting, short-chunk skipping.
* `src/speech2text/pipelines/stt/chunking.py`: the pipeline variant of the
  chunker, which additionally filters intro/outro zones.
* `src/worker/merger.py` (`ResultMerger`): text cleaning, overlap detection
  and removal, final cleanup, chunk merging.
* `src/worker/transcriber.py` (`WhisperTranscriber.transcribe_with_retry`).
* `src/worker/processor.py`: the orchestration (`process_stt_job`,
  `_transcribe_chunks`, `_merge_results`, `_upload_results_to_minio`).
* `src/internal/consumer/handlers/stt_handler.py` (`handle_stt_message`).
* `src/services/file_service.py` / `src/services/task_service.py` /
  `src/repositories/*` (job submission).

Conventions of the embedding:

* Timestamps are modelled in integer milliseconds (`Nat`).  The Python code
  stores chunk boundaries in milliseconds and converts to seconds by an exact
  division by 1000 for display; comparisons against the second-valued
  thresholds are scaled by 1000 here.
* Text is modelled as `List Char`; Python string operations (`strip`,
  `lower`, slicing, regular-expression substitutions) are translated into
  character-level recursive functions with the same observable behaviour on
  the character classes the code uses.
* Fallible code returns `Except`; raised exceptions become `Except.error`.
-/

/-- Job status enumeration, from `src/worker/constants.py` and
`src/repositories/models.py` (the two definitions agree). -/
inductive JobStatus
  | PENDING
  | PROCESSING
  | COMPLETED
  | FAILED
deriving DecidableEq

/-- Maximum chunk size in seconds, `src/worker/constants.py`. -/
def MAX_CHUNK_SIZE_SECONDS : Nat := 60

/-- Minimum chunk size in seconds, `src/worker/constants.py`. -/
def MIN_CHUNK_SIZE_SECONDS : Nat := 5

/-- One chunk-metadata dictionary as produced by `AudioChunker`
(`chunk_index`, `start_time`, `end_time`; the file path is omitted).
Times are in integer milliseconds. -/
structure ChunkRec where
  chunk_index : Nat
  startMs : Nat
  endMs : Nat
deriving DecidableEq

/-- The shared loop of `AudioChunker._split_chunk` and
`AudioChunker._chunk_fixed_duration`: Python
`for i, start_ms in enumerate(range(0, len, d))` emitting one chunk
`[base+start_ms, base+min(start_ms+d, len)]` with index `idx+i`.
`d` is the window in milliseconds and must be positive (as in the source,
where it is a positive constant times 1000). -/
def stepChunks (d : Nat) (hd : 0 < d) (base idx off len : Nat) : List ChunkRec :=
  if off < len then
    { chunk_index := idx, startMs := base + off, endMs := base + min (off + d) len } ::
      stepChunks d hd base (idx + 1) (off + d) len
  else []
termination_by len - off
decreasing_by omega

/-- Translation of `AudioChunker._split_chunk` (`src/worker/chunking.py`):
split the region `[s, e)` into windows of `MAX_CHUNK_SIZE_SECONDS` seconds,
sub-chunk `i` receiving index `idxOff + i`. -/
def split_chunk (s e idxOff : Nat) : List ChunkRec :=
  stepChunks (MAX_CHUNK_SIZE_SECONDS * 1000) (by norm_num [MAX_CHUNK_SIZE_SECONDS]) s idxOff 0 (e - s)

/-- Translation of `AudioChunker._chunk_fixed_duration`: contiguous windows of
`chunkDuration` seconds over audio of length `audioLenMs` milliseconds. -/
def chunk_fixed_duration (audioLenMs chunkDuration : Nat) (h : 0 < chunkDuration) : List ChunkRec :=
  stepChunks (chunkDuration * 1000) (Nat.mul_pos h (by norm_num)) 0 0 0 audioLenMs

/-- The enumerated loop over non-silent ranges in `_chunk_by_silence`
(both chunker variants share this structure; they differ only in the
minimum-duration threshold `minMs`).  A candidate `(s, e)` with duration
below `minMs` is skipped, one longer than `MAX_CHUNK_SIZE_SECONDS` is split
with index offset `i * 100`, and otherwise it is kept with index `i`.
The enumeration index `i` advances for every candidate, including skipped
ones. -/
def silence_go (minMs : Nat) (i : Nat) : List (Nat × Nat) → List ChunkRec
  | [] => []
  | (s, e) :: rest =>
    (if e - s < minMs then []
     else if MAX_CHUNK_SIZE_SECONDS * 1000 < e - s then split_chunk s e (i * 100)
     else [{ chunk_index := i, startMs := s, endMs := e }]) ++ silence_go minMs (i + 1) rest

/-- Translation of `AudioChunker._chunk_by_silence` in `src/worker/chunking.py`
for the case where `detect_nonsilent` returned the (sorted, disjoint) list
`ranges` of non-silent regions in milliseconds.  The worker variant compares
durations against `MIN_CHUNK_SIZE_SECONDS` (5 s). -/
def chunk_by_silence (ranges : List (Nat × Nat)) : List ChunkRec :=
  silence_go (MIN_CHUNK_SIZE_SECONDS * 1000) 0 ranges

/-- Default of `settings.min_chunk_duration` (`core/config.py`, 2.0 seconds),
in milliseconds; used by the `speech2text` pipeline chunker. -/
def s2t_min_chunk_ms : Nat := 2000

/-- Translation of the intro/outro filter in
`src/speech2text/pipelines/stt/chunking.py` (`_chunk_by_silence`, the block
guarded by `settings.filter_intro_outro`): ranges entirely inside the first
or last five seconds are dropped, partially overlapping ranges are clipped to
the zone boundary, and a clipped range is kept only if still non-empty.
`durMs` is the audio duration in milliseconds. -/
def s2t_filter_intro_outro (durMs : Nat) (ranges : List (Nat × Nat)) : List (Nat × Nat) :=
  ranges.filterMap fun r =>
    let s := r.1
    let e := r.2
    if (s < 5000 ∧ e < 5000) ∨ (durMs - 5000 < s ∧ durMs - 5000 < e) then none
    else
      let s' := if s < 5000 then 5000 else s
      let e' := if durMs - 5000 < e then durMs - 5000 else e
      if s' < e' then some (s', e') else none

/-- Translation of the `speech2text` pipeline `_chunk_by_silence`
(`src/speech2text/pipelines/stt/chunking.py`) after non-silent detection:
optional intro/outro filtering (on by default) followed by the enumerated
candidate loop with the configurable minimum duration
(`settings.min_chunk_duration`, default 2 s). -/
def s2t_chunk_by_silence (filterOn : Bool) (durMs : Nat) (ranges : List (Nat × Nat)) :
    List ChunkRec :=
  silence_go s2t_min_chunk_ms 0 (if filterOn then s2t_filter_intro_outro durMs ranges else ranges)

/-- Python `str.strip()` on the whitespace the merger handles: drop leading
and trailing whitespace characters. -/
def strip_text (s : List Char) : List Char :=
  ((s.dropWhile Char.isWhitespace).reverse.dropWhile Char.isWhitespace).reverse

/-- Model of the regular-expression substitution replacing every maximal run
of whitespace by a single space (Python `re.sub` of one-or-more whitespace
with a space, in `ResultMerger._clean_transcription`): a whitespace character
followed by more whitespace is dropped, the last of a run becomes the single
space. -/
def collapse_ws : List Char → List Char
  | [] => []
  | [c] => if c.isWhitespace then [' '] else [c]
  | c :: d :: rest =>
    if c.isWhitespace then
      if d.isWhitespace then collapse_ws (d :: rest)
      else ' ' :: collapse_ws (d :: rest)
    else c :: collapse_ws (d :: rest)

/-- Model of the substitution collapsing a run of a repeated
sentence-terminal punctuation character to a single occurrence
(the backreference pattern on the class period, bang, question mark in
`_clean_transcription` and `_final_cleanup`): a punctuation character
followed by a copy of itself is dropped, keeping the last of the run. -/
def collapse_punct_runs : List Char → List Char
  | [] => []
  | [c] => [c]
  | c :: d :: rest =>
    if (c = '.' ∨ c = '!' ∨ c = '?') ∧ d = c then collapse_punct_runs (d :: rest)
    else c :: collapse_punct_runs (d :: rest)

/-- Translation of `ResultMerger._clean_transcription`
(`src/worker/merger.py`): strip, collapse whitespace runs to single spaces,
collapse repeated terminal punctuation. -/
def clean_transcription (s : List Char) : List Char :=
  collapse_punct_runs (collapse_ws (strip_text s))

/-- Case-insensitive equality of the last `L` characters of `t1` with the
first `L` characters of `t2`, the comparison inside
`ResultMerger._find_overlap` (Python slices lowered with `str.lower()`). -/
def overlap_match (t1 t2 : List Char) (L : Nat) : Bool :=
  (t1.drop (t1.length - L)).map Char.toLower == (t2.take L).map Char.toLower

/-- The descending search loop of `ResultMerger._find_overlap`: try overlap
lengths from the current candidate down to `minO`, returning the first
(hence longest) match, or 0 if none matches. -/
def find_overlap_down (t1 t2 : List Char) (minO : Nat) : Nat → Nat
  | 0 => 0
  | L + 1 =>
    if L + 1 < minO then 0
    else if overlap_match t1 t2 (L + 1) then L + 1
    else find_overlap_down t1 t2 minO L

/-- Translation of `ResultMerger._find_overlap`: the longest
`L` in `[minO, min(len t1, len t2, 100)]` whose case-insensitive
suffix/prefix comparison succeeds, else 0.  All call sites use the default
`min_overlap = 10`. -/
def find_overlap (t1 t2 : List Char) (minO : Nat) : Nat :=
  find_overlap_down t1 t2 minO (min (min t1.length t2.length) 100)

/-- One iteration of the loop in `ResultMerger._merge_with_overlap_removal`:
drop the detected overlap prefix from the incoming text, then append it,
inserting a single space if neither side already supplies one. -/
def merge_step (merged current : List Char) : List Char :=
  let cur := current.drop (find_overlap merged current 10)
  if merged ≠ [] ∧ cur ≠ [] ∧ merged.getLast? ≠ some ' ' ∧ cur.head? ≠ some ' ' then
    merged ++ ' ' :: cur
  else
    merged ++ cur

/-- Translation of `ResultMerger._merge_with_overlap_removal`: left fold of
`merge_step` over the cleaned chunk texts (a single text is returned
unchanged, matching the early return in the source). -/
def merge_with_overlap_removal : List (List Char) → List Char
  | [] => []
  | t :: rest => rest.foldl merge_step t

/-- Model of the substitution collapsing runs of the space character to one
space (the first substitution in `_final_cleanup`): a space followed by a
space is dropped. -/
def collapse_spaces : List Char → List Char
  | [] => []
  | [c] => [c]
  | c :: d :: rest =>
    if c = ' ' ∧ d = ' ' then collapse_spaces (d :: rest)
    else c :: collapse_spaces (d :: rest)

/-- The four punctuation characters of `_final_cleanup`'s spacing rules. -/
def is_punct4 (c : Char) : Bool := c = '.' ∨ c = ',' ∨ c = '!' ∨ c = '?'

/-- Closing brackets and quote of `_final_cleanup`'s bracket rule. -/
def is_closer (c : Char) : Bool :=
  c = ')' ∨ c = ']' ∨ c = '"' ∨ c = Char.ofNat 125

/-- Opening brackets and quote of `_final_cleanup`'s bracket rule. -/
def is_opener (c : Char) : Bool :=
  c = '(' ∨ c = '[' ∨ c = '"' ∨ c = Char.ofNat 123

/-- Right-to-left scanner implementing the substitution that removes a
whitespace run immediately preceding a character satisfying `target`:
walking the reversed text, `afterTarget` records that a target character has
been passed with only whitespace since, and such whitespace is dropped. -/
def rm_ws_before_go (target : Char → Bool) (afterTarget : Bool) : List Char → List Char
  | [] => []
  | c :: rest =>
    if c.isWhitespace then
      if afterTarget then rm_ws_before_go target afterTarget rest
      else c :: rm_ws_before_go target false rest
    else c :: rm_ws_before_go target (target c) rest

/-- Model of the substitution removing a whitespace run that immediately
precedes a character satisfying `target` (used with the punctuation class
and with the closing-bracket class in `_final_cleanup`). -/
def rm_ws_before (target : Char → Bool) (s : List Char) : List Char :=
  (rm_ws_before_go target false s.reverse).reverse

/-- Model of the substitution inserting a space between one of the four
punctuation characters and a following non-whitespace character
(the two-group pattern in `_final_cleanup`; the scan resumes after the
matched pair, so the second character is not itself re-examined). -/
def add_space_after_punct : List Char → List Char
  | [] => []
  | [c] => [c]
  | c :: d :: rest =>
    if is_punct4 c ∧ ¬ d.isWhitespace then c :: ' ' :: d :: add_space_after_punct rest
    else c :: add_space_after_punct (d :: rest)

/-- Forward scanner for the substitution that puts exactly one space after
every opening bracket or quote, replacing any (possibly empty) whitespace run
that followed it (`_final_cleanup`): `skipWs` records that the whitespace run
after an opener is being consumed. -/
def space_after_openers_go (skipWs : Bool) : List Char → List Char
  | [] => []
  | c :: rest =>
    if skipWs ∧ c.isWhitespace then space_after_openers_go skipWs rest
    else if is_opener c then c :: ' ' :: space_after_openers_go true rest
    else c :: space_after_openers_go false rest

/-- Model of the substitution that puts exactly one space after every opening
bracket or quote, replacing any (possibly empty) whitespace run that followed
it (`_final_cleanup`). -/
def space_after_openers (s : List Char) : List Char := space_after_openers_go false s

/-- Python `text[0].upper() + text[1:]` (with the one-character case folded
in, which coincides). -/
def capitalize_first : List Char → List Char
  | [] => []
  | c :: rest => c.toUpper :: rest

/-- Translation of `ResultMerger._final_cleanup`, applying the source's
substitutions in order: collapse spaces, remove space before punctuation,
space after punctuation, remove space before closers, space after openers,
collapse repeated punctuation, capitalize, strip. -/
def final_cleanup (s : List Char) : List Char :=
  strip_text (capitalize_first (collapse_punct_runs (space_after_openers
    (rm_ws_before is_closer (add_space_after_punct
      (rm_ws_before is_punct4 (collapse_spaces s)))))))

/-- A chunk dictionary as seen by the merger and the orchestrator
(`chunk_index`, timestamps, optional `transcription`, `status`,
optional `error_message`). -/
structure PChunk where
  chunk_index : Nat
  startMs : Nat
  endMs : Nat
  transcription : Option (List Char)
  status : JobStatus
  error_message : Option String
deriving DecidableEq

/-- Python `chunk.get('transcription', '')` with `None` also read as empty
(both are falsy and are skipped by the merger's loop). -/
def chunk_text (c : PChunk) : List Char := c.transcription.getD []

/-- The sort key comparison of `merge_chunks`: ascending `chunk_index`. -/
def chunk_le (a b : PChunk) : Bool := a.chunk_index ≤ b.chunk_index

/-- Python `sorted(chunks, key=...)`: a stable sort by `chunk_index`. -/
def sort_chunks (cs : List PChunk) : List PChunk := cs.mergeSort chunk_le

/-- The extraction loop of `ResultMerger.merge_chunks`: chunks whose
transcription is missing or empty are skipped, the rest are cleaned. -/
def extract_transcriptions (cs : List PChunk) : List (List Char) :=
  cs.filterMap fun c =>
    if chunk_text c = [] then none else some (clean_transcription (chunk_text c))

/-- Translation of `ResultMerger.merge_chunks` (`src/worker/merger.py`):
empty input gives an empty string; otherwise sort by index, extract and clean
the non-empty transcriptions, return empty if none remain, else merge with
overlap removal and apply the final cleanup.  The model is total, matching
the source's behaviour on well-typed input (its internal helpers swallow
their own exceptions). -/
def merge_chunks (cs : List PChunk) : List Char :=
  if cs.isEmpty then []
  else
    let ts := extract_transcriptions (sort_chunks cs)
    if ts.isEmpty then []
    else final_cleanup (merge_with_overlap_removal ts)

/-- Outcome of one call to `WhisperTranscriber.transcribe` as observed by
`transcribe_with_retry` (`src/worker/transcriber.py`): a returned text
(possibly empty), a raised `TimeoutError`, a raised `WhisperCrashError`, or
any other raised exception. -/
inductive AttemptResult
  | success (text : List Char)
  | timeout
  | crash
  | failure
deriving DecidableEq

/-- Errors escaping `transcribe_with_retry`: the re-raised timeout or crash
after the last attempt, an immediately re-raised unexpected exception, or the
generic exception raised when every attempt returned an empty result and no
exception was recorded. -/
inductive TranscribeError
  | timeout
  | crash
  | unexpected
  | noOutput
deriving DecidableEq

/-- The retry loop body of `WhisperTranscriber.transcribe_with_retry`.
`attemptIdx` is the zero-based attempt counter (used for the exponential
backoff `2 ^ attemptIdx`), `lastExc` is Python's `last_exception`, and the
list holds the outcomes of the remaining attempts the loop would make.
Returns the result together with the list of backoff sleep durations, in
seconds, actually performed.  An empty or retryable outcome on a non-final
attempt sleeps `2 ^ attemptIdx` and continues; a timeout or crash on the
final attempt is re-raised; an unexpected exception is re-raised at once;
falling out of the loop raises `last_exception` if set, else a generic
failure. -/
def retry_run (attemptIdx : Nat) (lastExc : Option TranscribeError) :
    List AttemptResult → Except TranscribeError (List Char) × List Nat
  | [] => (.error (lastExc.getD .noOutput), [])
  | [a] =>
    match a with
    | .success t => if t = [] then (.error (lastExc.getD .noOutput), []) else (.ok t, [])
    | .timeout => (.error .timeout, [])
    | .crash => (.error .crash, [])
    | .failure => (.error .unexpected, [])
  | a :: b :: rest =>
    match a with
    | .success t =>
      if t = [] then
        let r := retry_run (attemptIdx + 1) lastExc (b :: rest)
        (r.1, 2 ^ attemptIdx :: r.2)
      else (.ok t, [])
    | .timeout =>
      let r := retry_run (attemptIdx + 1) (some .timeout) (b :: rest)
      (r.1, 2 ^ attemptIdx :: r.2)
    | .crash =>
      let r := retry_run (attemptIdx + 1) (some .crash) (b :: rest)
      (r.1, 2 ^ attemptIdx :: r.2)
    | .failure => (.error .unexpected, [])

/-- Translation of `WhisperTranscriber.transcribe_with_retry`
(`src/worker/transcriber.py`): the loop runs for at most `max_retries`
attempts over the pending attempt outcomes. -/
def transcribe_with_retry (attempts : List AttemptResult) (max_retries : Nat) :
    Except TranscribeError (List Char) × List Nat :=
  retry_run 0 none (attempts.take max_retries)

/-- Human-readable message stored in a failed chunk's `error_message`
(Python stores `str(e)`; only non-emptiness matters to the claims). -/
def err_text : TranscribeError → String
  | .timeout => "Transcription timeout"
  | .crash => "Whisper crashed"
  | .unexpected => "Unexpected transcription error"
  | .noOutput => "All transcription attempts failed"

/-- One chunk together with the outcomes its transcription attempts would
produce, the input to the fan-out loop. -/
structure ChunkJob where
  chunk : PChunk
  attempts : List AttemptResult
deriving DecidableEq

/-- State threaded through the loop of `_transcribe_chunks`
(`src/worker/processor.py`): all chunks with their updated statuses, the
successfully transcribed chunks in completion order, and the
`chunks_completed` values written to the job store so far. -/
structure FanOutState where
  processed : List PChunk
  transcribed : List PChunk
  progress_writes : List Nat
deriving DecidableEq

/-- One iteration of the loop in `_transcribe_chunks`: on success the chunk
is marked COMPLETED, appended to the transcribed list, and a progress update
with the new `chunks_completed` count is written to the job store; on any
error the chunk is marked FAILED with an error message and the loop
continues. -/
def fan_out_step (max_retries : Nat) (st : FanOutState) (cj : ChunkJob) : FanOutState :=
  match (transcribe_with_retry cj.attempts max_retries).1 with
  | .ok t =>
    let c := { cj.chunk with transcription := some t, status := JobStatus.COMPLETED }
    { processed := st.processed ++ [c]
      transcribed := st.transcribed ++ [c]
      progress_writes := st.progress_writes ++ [st.transcribed.length + 1] }
  | .error e =>
    let c := { cj.chunk with status := JobStatus.FAILED, error_message := some (err_text e) }
    { processed := st.processed ++ [c]
      transcribed := st.transcribed
      progress_writes := st.progress_writes }

/-- The fan-out loop of `_transcribe_chunks` over all chunks of a job. -/
def fan_out (cjs : List ChunkJob) (max_retries : Nat) : FanOutState :=
  cjs.foldl (fan_out_step max_retries) ⟨[], [], []⟩

/-- Translation of `_transcribe_chunks` (`src/worker/processor.py`): run the
fan-out; if no chunk was transcribed successfully, raise the permanent
`AllChunksFailed` error (Python
`PermanentError("All chunks failed to transcribe")`). -/
def transcribe_chunks (cjs : List ChunkJob) (max_retries : Nat) :
    Except String FanOutState :=
  let st := fan_out cjs max_retries
  if st.transcribed.isEmpty then .error "All chunks failed to transcribe" else .ok st

/-- How a run of the pipeline body ends, as classified by the except-clauses
of `process_stt_job` (`src/worker/processor.py`): success, a raised
`PermanentError`, a raised `TransientError`, or any other raised exception. -/
inductive PipelineOutcome
  | success
  | permanent (msg : String)
  | transient (msg : String)
  | unexpected (msg : String)
deriving DecidableEq

/-- The job-record fields touched by the error handling of
`process_stt_job` and by the consumer. -/
structure JobRec where
  status : JobStatus
  error_message : Option String
  retry_count : Nat
deriving DecidableEq

/-- Effect of the except-clauses of `process_stt_job` on the job record
before the exception is re-raised: a `PermanentError` sets the job FAILED
with the error message; a `TransientError` increments `retry_count` (the
status is left as is, i.e. PROCESSING); any other exception sets the job
FAILED with the error message. -/
def processor_on_error (job : JobRec) (o : PipelineOutcome) : JobRec :=
  match o with
  | .success => job
  | .permanent msg => { job with status := JobStatus.FAILED, error_message := some msg }
  | .transient _ => { job with retry_count := job.retry_count + 1 }
  | .unexpected msg => { job with status := JobStatus.FAILED, error_message := some msg }

/-- Message disposition issued by the consumer. -/
inductive Disposition
  | ack
  | requeue
  | reject
deriving DecidableEq

/-- Translation of the outcome handling in `handle_stt_message`
(`src/internal/consumer/handlers/stt_handler.py`): acknowledge on success,
requeue on `TransientError`, reject without requeue on `PermanentError`,
requeue on any unexpected exception. -/
def handler_disposition : PipelineOutcome → Disposition
  | .success => .ack
  | .permanent _ => .reject
  | .transient _ => .requeue
  | .unexpected _ => .requeue

/-- One call to the blob store's upload as performed by
`_upload_results_to_minio`: object name, content type, and the uploaded
text (the source uploads its UTF-8 encoding; decoding those bytes returns
exactly this text). -/
structure UploadCall where
  object_name : String
  content_type : String
  content : List Char
deriving DecidableEq

/-- Translation of `_upload_results_to_minio` (`src/worker/processor.py`):
upload the transcription under `results/result_<job_id>.txt` as
`text/plain`, returning the upload call and the stored path. -/
def upload_results (job_id : String) (transcription : List Char) : UploadCall × String :=
  let result_filename := "result_" ++ job_id ++ ".txt"
  let minio_path := "results/" ++ result_filename
  ({ object_name := minio_path, content_type := "text/plain", content := transcription },
   minio_path)

/-- The fields of the final `JobUpdate` patch written by step 6 of
`process_stt_job`. -/
structure JobUpdateRec where
  status : Option JobStatus
  transcription_text : Option (List Char)
  minio_result_path : Option String
  chunks_completed : Option Nat
deriving DecidableEq

/-- Steps 4 to 6 of the success path of `process_stt_job`
(`src/worker/processor.py`): merge the transcribed chunks
(`_merge_results` delegates to `ResultMerger.merge_chunks`), upload the
merged text, and patch the job COMPLETED with the text, the result path and
the completed-chunk count. -/
def process_success (job_id : String) (transcribed : List PChunk) :
    UploadCall × JobUpdateRec :=
  let final_transcription := merge_chunks transcribed
  let up := upload_results job_id final_transcription
  (up.1,
   { status := some JobStatus.COMPLETED
     transcription_text := some final_transcription
     minio_result_path := some up.2
     chunks_completed := some transcribed.length })

/-- A stored file record (`src/services/file_service.py`): filename, blob
path and size in megabytes (a rational models the Python float). -/
structure FileRecord where
  original_filename : String
  minio_path : String
  file_size_mb : ℚ
deriving DecidableEq

/-- Translation of the validation and record creation in
`FileService.upload_file` (`src/services/file_service.py`): a file larger
than 500 MB is rejected (`ValueError`, surfaced by the route as a permanent
413); otherwise a file record with the given metadata is stored. -/
def upload_file (filename minio_path : String) (size_mb : ℚ) : Except String FileRecord :=
  if size_mb > 500 then .error "File too large"
  else .ok { original_filename := filename, minio_path := minio_path, file_size_mb := size_mb }

/-- Default transcriber model, `settings.default_whisper_model`
(`core/config.py`). -/
def default_whisper_model : String := "medium"

/-- The queue message payload published for a new job.  Modelled from the
spec: `QueueManager.publish_job` itself is not under `src/` (only its
callers in `src/services/task_service.py` and the consumer entrypoints are);
per the spec it publishes `{job_id, language, model, filename}` (plus a
publication timestamp, omitted here) with the given priority. -/
structure QueueMessage where
  job_id : String
  language : String
  model : String
  filename : String
deriving DecidableEq

/-- Modelled from the spec: `QueueManager.publish_job` is missing from
`src/`; the call sites pass the job id, a payload of language, model and
filename, and a priority, and the spec says the published message carries
exactly those fields with that priority. -/
def publish_job (job_id language model filename : String) (priority : Nat) :
    QueueMessage × Nat :=
  ({ job_id := job_id, language := language, model := model, filename := filename }, priority)

/-- The job document created on submission (`JobCreate` defaults plus
`JobModel` defaults in `src/repositories/models.py`: a new job starts
PENDING). -/
structure NewJob where
  status : JobStatus
  language : String
  original_filename : String
  minio_audio_path : String
  file_size_mb : ℚ
  model_used : String
  chunk_strategy : String
deriving DecidableEq

/-- Translation of `TaskRepository.create_job` inserting a `JobModel` built
from a `JobCreate`: the status field takes its `JobModel` default PENDING. -/
def create_job (language filename audio_path : String) (size_mb : ℚ)
    (model strategy : String) : NewJob :=
  { status := JobStatus.PENDING
    language := language
    original_filename := filename
    minio_audio_path := audio_path
    file_size_mb := size_mb
    model_used := model
    chunk_strategy := strategy }

/-- Translation of `TaskService.create_stt_task_from_file_id`
(`src/services/task_service.py`): resolve the language (a missing or empty
language falls back to the default `"vi"`), pick the configured default
model, insert a PENDING job copying the file record's metadata with the
`silence_based` strategy, and publish the queue message with priority 5.
`job_id` stands for the database-assigned identifier of the inserted job. -/
def create_stt_task_from_file_id (fr : FileRecord) (language : Option String)
    (job_id : String) : NewJob × QueueMessage × Nat :=
  let lang := match language with
    | none => "vi"
    | some l => if l = "" then "vi" else l
  let model := default_whisper_model
  let job := create_job lang fr.original_filename fr.minio_path fr.file_size_mb
    model "silence_based"
  let pub := publish_job job_id lang model fr.original_filename 5
  (job, pub.1, pub.2)

/-- A successful retry outcome, as tested by the fan-out loop. -/
def retry_ok (cj : ChunkJob) (m : Nat) : Bool :=
  match (transcribe_with_retry cj.attempts m).1 with
  | .ok _ => true
  | .error _ => false

theorem chunk_le_trans : ∀ (a b c : PChunk), chunk_le a b → chunk_le b c → chunk_le a c := by
  intro a b c hab hbc
  simp only [chunk_le, decide_eq_true_eq] at *
  omega

theorem chunk_le_total : ∀ (a b : PChunk), chunk_le a b || chunk_le b a := by
  intro a b
  simp only [chunk_le, Bool.or_eq_true, decide_eq_true_eq]
  omega

theorem sort_chunks_idem (cs : List PChunk) :
    sort_chunks (sort_chunks cs) = sort_chunks cs :=
  List.mergeSort_of_sorted (List.sorted_mergeSort chunk_le_trans chunk_le_total cs)

theorem sort_chunks_isEmpty (cs : List PChunk) :
    (sort_chunks cs).isEmpty = cs.isEmpty := by
  cases h : cs.isEmpty with
  | true =>
    rw [List.isEmpty_iff] at h
    subst h
    simp [sort_chunks, List.mergeSort]
  | false =>
    rw [List.isEmpty_eq_false] at h ⊢
    intro hs
    apply h
    have := (List.mergeSort_perm cs chunk_le).length_eq
    rw [sort_chunks] at hs
    rw [hs] at this
    exact List.eq_nil_of_length_eq_zero this.symm

theorem merge_chunks_sort_eq (cs : List PChunk) :
    merge_chunks (sort_chunks cs) = merge_chunks cs := by
  rw [merge_chunks, merge_chunks, sort_chunks_isEmpty, sort_chunks_idem]

theorem result_path_eq (job_id : String) :
    "results/" ++ ("result_" ++ job_id ++ ".txt") = "results/result_" ++ job_id ++ ".txt" := by
  have h : ("results/" : String) ++ "result_" = "results/result_" := rfl
  rw [← String.append_assoc, ← String.append_assoc, h]

/-- C8: for every job completed successfully, the merged text is uploaded at
exactly the path results/result_<job_id>.txt with content type text/plain,
and the job is closed COMPLETED with result path equal to that path and
transcription text equal to the merger's output over the completed chunks
(which the merger itself sorts by index, so pre-sorting the chunks does not
change it); the stored text and the uploaded artifact are the same string. -/
theorem c8_artifact_identity (job_id : String) (transcribed : List PChunk) :
    (process_success job_id transcribed).1.object_name =
      "results/result_" ++ job_id ++ ".txt" ∧
    (process_success job_id transcribed).1.content_type = "text/plain" ∧
    (process_success job_id transcribed).1.content = merge_chunks transcribed ∧
    (process_success job_id transcribed).2.status = some JobStatus.COMPLETED ∧
    (process_success job_id transcribed).2.minio_result_path =
      some (process_success job_id transcribed).1.object_name ∧
    (process_success job_id transcribed).2.transcription_text =
      some (process_success job_id transcribed).1.content ∧
    (process_success job_id transcribed).2.chunks_completed = some transcribed.length ∧
    merge_chunks transcribed = merge_chunks (sort_chunks transcribed) :=
  ⟨result_path_eq job_id, rfl, rfl, rfl, rfl, rfl, rfl, (merge_chunks_sort_eq transcribed).symm⟩

/-- C7 counterexample: an unexpected (neither transient nor permanent)
exception does not leave the job in PROCESSING; `process_stt_job`'s generic
except-clause sets the job FAILED before the consumer requeues the
message. -/
theorem c7_unexpected_counterexample :
    (processor_on_error ⟨JobStatus.PROCESSING, none, 0⟩ (.unexpected "boom")).status =
      JobStatus.FAILED ∧
    JobStatus.FAILED ≠ JobStatus.PROCESSING :=
  ⟨rfl, by decide⟩

/-- C7 (amended): a permanent error sets the job FAILED with the error
message and the message is rejected without requeue; a transient error
increments retry_count, leaves the status (hence PROCESSING) unchanged, and
the message is requeued; an unexpected error sets the job FAILED with the
error message (retry_count unchanged) yet the message is requeued; on
success the message is acknowledged. -/
theorem c7_error_dispositions_amended (job : JobRec) (msg : String) :
    (processor_on_error job (.permanent msg) =
      { job with status := JobStatus.FAILED, error_message := some msg } ∧
     handler_disposition (.permanent msg) = .reject) ∧
    (processor_on_error job (.transient msg) =
      { job with retry_count := job.retry_count + 1 } ∧
     (job.status = JobStatus.PROCESSING →
       (processor_on_error job (.transient msg)).status = JobStatus.PROCESSING) ∧
     handler_disposition (.transient msg) = .requeue) ∧
    (processor_on_error job (.unexpected msg) =
      { job with status := JobStatus.FAILED, error_message := some msg } ∧
     (processor_on_error job (.unexpected msg)).retry_count = job.retry_count ∧
     handler_disposition (.unexpected msg) = .requeue) ∧
    handler_disposition .success = .ack :=
  ⟨⟨rfl, rfl⟩, ⟨rfl, fun h => h, rfl⟩, ⟨rfl, rfl, rfl⟩, rfl⟩

/-- C7 witness: the amended dispositions at a concrete PROCESSING job. -/
theorem c7_error_dispositions_witness :
    processor_on_error ⟨JobStatus.PROCESSING, none, 2⟩ (.transient "net down") =
      ⟨JobStatus.PROCESSING, none, 3⟩ ∧
    (processor_on_error ⟨JobStatus.PROCESSING, none, 2⟩ (.transient "net down")).status =
      JobStatus.PROCESSING ∧
    handler_disposition (.transient "net down") = .requeue := by
  have h := c7_error_dispositions_amended ⟨JobStatus.PROCESSING, none, 2⟩ "net down"
  exact ⟨h.2.1.1, h.2.1.2.1 rfl, h.2.1.2.2⟩

/-- C9: every stored file record passed validation (at most 500 MB; oversize
input is rejected before any record exists), and submission from such a
record inserts a PENDING job and publishes a message carrying the job id,
the caller's language (default "vi" when absent or empty), the configured
default model and the filename, with priority 5. -/
theorem c9_submission (filename mpath job_id : String) (size : ℚ)
    (language : Option String) (fr : FileRecord)
    (h : upload_file filename mpath size = .ok fr) :
    fr.file_size_mb ≤ 500 ∧
    fr.original_filename = filename ∧
    (create_stt_task_from_file_id fr language job_id).1.status = JobStatus.PENDING ∧
    (create_stt_task_from_file_id fr language job_id).2.1.job_id = job_id ∧
    (language = none →
      (create_stt_task_from_file_id fr language job_id).2.1.language = "vi") ∧
    (∀ l : String, language = some l → l ≠ "" →
      (create_stt_task_from_file_id fr language job_id).2.1.language = l) ∧
    (create_stt_task_from_file_id fr language job_id).2.1.model = default_whisper_model ∧
    (create_stt_task_from_file_id fr language job_id).2.1.filename = fr.original_filename ∧
    (create_stt_task_from_file_id fr language job_id).2.2 = 5 ∧
    (∀ s : ℚ, 500 < s → upload_file filename mpath s = .error "File too large") := by
  rw [upload_file] at h
  by_cases hs : size > 500
  · rw [if_pos hs] at h
    exact absurd h (by simp)
  · rw [if_neg hs] at h
    injection h with h
    subst h
    refine ⟨by simpa using not_lt.mp hs, rfl, rfl, rfl, ?_, ?_, rfl, rfl, rfl, ?_⟩
    · intro hl
      subst hl
      rfl
    · intro l hl hne
      subst hl
      simp [create_stt_task_from_file_id, publish_job, hne]
    · intro s hs500
      rw [upload_file, if_pos hs500]

/-- C9 witness: a concrete submission of a 12 MB file with no language. -/
theorem c9_submission_witness :
    upload_file "talk.mp3" "uploads/u1.mp3" 12 = .ok ⟨"talk.mp3", "uploads/u1.mp3", 12⟩ ∧
    (create_stt_task_from_file_id ⟨"talk.mp3", "uploads/u1.mp3", 12⟩ none "j1").1.status =
      JobStatus.PENDING ∧
    (create_stt_task_from_file_id ⟨"talk.mp3", "uploads/u1.mp3", 12⟩ none "j1").2.1.language =
      "vi" ∧
    (create_stt_task_from_file_id ⟨"talk.mp3", "uploads/u1.mp3", 12⟩ none "j1").2.2 = 5 := by
  have hup : upload_file "talk.mp3" "uploads/u1.mp3" 12 =
      .ok ⟨"talk.mp3", "uploads/u1.mp3", 12⟩ := by
    rw [upload_file, if_neg (by norm_num)]
  have h := c9_submission "talk.mp3" "uploads/u1.mp3" "j1" 12 none
    ⟨"talk.mp3", "uploads/u1.mp3", 12⟩ hup
  exact ⟨hup, h.2.2.1, h.2.2.2.2.1 rfl, h.2.2.2.2.2.2.2.2.1⟩

theorem fan_out_go_spec (m : Nat) (cjs : List ChunkJob) :
    ∀ st : FanOutState,
      (cjs.foldl (fan_out_step m) st).transcribed.length =
        st.transcribed.length + cjs.countP (fun cj => retry_ok cj m) ∧
      (cjs.foldl (fan_out_step m) st).progress_writes =
        st.progress_writes ++
          List.range' (st.transcribed.length + 1) (cjs.countP (fun cj => retry_ok cj m)) := by
  induction cjs with
  | nil => intro st; simp
  | cons cj rest ih =>
    intro st
    rw [List.foldl_cons, List.countP_cons]
    obtain ⟨ih1, ih2⟩ := ih (fan_out_step m st cj)
    cases hr : (transcribe_with_retry cj.attempts m).1 with
    | ok t =>
      have hok : retry_ok cj m = true := by rw [retry_ok, hr]
      have h1 : (fan_out_step m st cj).transcribed =
          st.transcribed ++
            [{ cj.chunk with transcription := some t, status := JobStatus.COMPLETED }] := by
        simp only [fan_out_step, hr]
      have h2 : (fan_out_step m st cj).progress_writes =
          st.progress_writes ++ [st.transcribed.length + 1] := by
        simp only [fan_out_step, hr]
      refine ⟨?_, ?_⟩
      · rw [ih1, h1]
        simp [hok]
        try omega
      · rw [ih2, h2, h1]
        simp only [List.length_append, List.length_cons, List.length_nil, hok, if_true]
        rw [List.append_assoc]
        congr 1
    | error e =>
      have hok : retry_ok cj m = false := by rw [retry_ok, hr]
      have h1 : (fan_out_step m st cj).transcribed = st.transcribed := by
        simp only [fan_out_step, hr]
      have h2 : (fan_out_step m st cj).progress_writes = st.progress_writes := by
        simp only [fan_out_step, hr]
      rw [ih1, ih2, h1, h2]
      simp [hok]

/-- C2 counterexample: a job of five chunks that all transcribe successfully
receives five progress writes during the fan-out, exceeding the claimed
bound of four; the cited `_transcribe_chunks` writes after every successful
chunk, not only at milestones. -/
theorem c2_checkpoint_bound_counterexample :
    (fan_out (List.replicate 5
        ({ chunk := { chunk_index := 0, startMs := 0, endMs := 1000,
                      transcription := none, status := JobStatus.PENDING,
                      error_message := none },
           attempts := [AttemptResult.success ['x']] } : ChunkJob)) 3).progress_writes =
      [1, 2, 3, 4, 5] ∧
    ¬ ((5 : Nat) ≤ 4) := by
  exact ⟨by decide, by decide⟩

/-- C2 (amended): the orchestrator writes a `chunks_completed` progress
update to the job store after every successfully transcribed chunk — the
writes are exactly the counts 1, 2, …, k where k is the number of successful
chunks — so the number of writes equals the number of successful chunks and
grows with N rather than being bounded by four. -/
theorem c2_progress_writes_amended (cjs : List ChunkJob) (m : Nat) :
    (fan_out cjs m).progress_writes =
      List.range' 1 (cjs.countP (fun cj => retry_ok cj m)) ∧
    (fan_out cjs m).progress_writes.length =
      cjs.countP (fun cj => retry_ok cj m) ∧
    (fan_out cjs m).transcribed.length = cjs.countP (fun cj => retry_ok cj m) := by
  obtain ⟨h1, h2⟩ := fan_out_go_spec m cjs ⟨[], [], []⟩
  rw [fan_out]
  refine ⟨by simpa using h2, ?_, by simpa using h1⟩
  rw [show (List.foldl (fan_out_step m) ⟨[], [], []⟩ cjs).progress_writes =
    List.range' 1 (cjs.countP (fun cj => retry_ok cj m)) from by simpa using h2]
  simp

/-- C10: the merger's merge_chunks is total by construction and returns the
empty string (rather than raising) on an empty chunk list and when every
chunk's transcription is empty or missing; chunks with empty transcriptions
are skipped by the extraction loop and contribute nothing to the output. -/
theorem c10_merger_empty_handling :
    merge_chunks [] = [] ∧
    (∀ cs : List PChunk, (∀ c ∈ cs, chunk_text c = []) → merge_chunks cs = []) ∧
    (∀ cs : List PChunk,
      extract_transcriptions cs =
        extract_transcriptions (cs.filter (fun c => !(chunk_text c).isEmpty))) := by
  refine ⟨rfl, ?_, ?_⟩
  · intro cs h
    by_cases hc : cs.isEmpty
    · rw [merge_chunks, if_pos hc]
    · have hts : extract_transcriptions (sort_chunks cs) = [] := by
        rw [extract_transcriptions, List.filterMap_eq_nil_iff]
        intro c hcmem
        have hmem : c ∈ cs := by
          have := (List.mergeSort_perm cs chunk_le).mem_iff (a := c)
          exact this.mp hcmem
        rw [if_pos (h c hmem)]
      rw [merge_chunks, if_neg hc, hts]
      simp
  · intro cs
    induction cs with
    | nil => rfl
    | cons c rest ih =>
      by_cases hct : chunk_text c = []
      · rw [extract_transcriptions, List.filterMap_cons, if_pos hct]
        rw [List.filter_cons, if_neg (by simp [hct])]
        exact ih
      · rw [extract_transcriptions, List.filterMap_cons, if_neg hct]
        rw [List.filter_cons, if_pos (by simp [hct])]
        rw [extract_transcriptions, List.filterMap_cons, if_neg hct]
        rw [← extract_transcriptions, ← extract_transcriptions, ih]

/-- C10 witness: a list whose only chunks have a missing and an empty
transcription merges to the empty string, and the extraction skips both. -/
theorem c10_merger_empty_handling_witness :
    merge_chunks
      [{ chunk_index := 0, startMs := 0, endMs := 1000, transcription := none,
         status := JobStatus.COMPLETED, error_message := none },
       { chunk_index := 1, startMs := 1000, endMs := 2000, transcription := some [],
         status := JobStatus.COMPLETED, error_message := none }] = [] := by
  exact c10_merger_empty_handling.2.1 _ (by decide)

theorem stepChunks_eq_nil (d : Nat) (hd : 0 < d) (base idx off len : Nat)
    (h : ¬ off < len) : stepChunks d hd base idx off len = [] := by
  rw [stepChunks, if_neg h]

theorem stepChunks_eq_cons (d : Nat) (hd : 0 < d) (base idx off len : Nat)
    (h : off < len) :
    stepChunks d hd base idx off len =
      { chunk_index := idx, startMs := base + off, endMs := base + min (off + d) len } ::
        stepChunks d hd base (idx + 1) (off + d) len := by
  rw [stepChunks]
  rw [if_pos h]

theorem stepChunks_mem (d : Nat) (hd : 0 < d) (base idx off len : Nat) :
    ∀ c ∈ stepChunks d hd base idx off len,
      base + off ≤ c.startMs ∧ c.startMs < c.endMs ∧ c.endMs ≤ base + len := by
  by_cases h : off < len
  · rw [stepChunks_eq_cons d hd base idx off len h]
    intro c hc
    rcases List.mem_cons.mp hc with hc | hc
    · subst hc
      refine ⟨le_refl _, ?_, ?_⟩
      · simp only []
        have : off < min (off + d) len := by omega
        omega
      · simp only []
        have : min (off + d) len ≤ len := by omega
        omega
    · have := stepChunks_mem d hd base (idx + 1) (off + d) len c hc
      omega
  · rw [stepChunks_eq_nil d hd base idx off len h]
    intro c hc
    exact absurd hc (List.not_mem_nil c)
termination_by len - off
decreasing_by omega

theorem stepChunks_chain (d : Nat) (hd : 0 < d) (base idx off len : Nat) :
    List.Chain' (fun a b => a.endMs ≤ b.startMs) (stepChunks d hd base idx off len) := by
  by_cases h : off < len
  · rw [stepChunks_eq_cons d hd base idx off len h]
    apply List.chain'_cons'.mpr
    refine ⟨?_, stepChunks_chain d hd base (idx + 1) (off + d) len⟩
    intro y hy
    by_cases h2 : off + d < len
    · rw [stepChunks_eq_cons d hd base (idx + 1) (off + d) len h2] at hy
      simp only [List.head?_cons, Option.mem_def, Option.some.injEq] at hy
      subst hy
      simp only []
      omega
    · rw [stepChunks_eq_nil d hd base (idx + 1) (off + d) len h2] at hy
      simp at hy
  · rw [stepChunks_eq_nil d hd base idx off len h]
    exact List.chain'_nil
termination_by len - off
decreasing_by omega

theorem stepChunks_indices (d : Nat) (hd : 0 < d) (base idx off len : Nat) :
    (stepChunks d hd base idx off len).map (fun c => c.chunk_index) =
      List.range' idx (stepChunks d hd base idx off len).length := by
  by_cases h : off < len
  · rw [stepChunks_eq_cons d hd base idx off len h]
    simp only [List.map_cons, List.length_cons, List.range'_succ]
    rw [stepChunks_indices d hd base (idx + 1) (off + d) len]
  · rw [stepChunks_eq_nil d hd base idx off len h]
    rfl
termination_by len - off
decreasing_by omega

theorem silence_go_mem (minMs : Nat) :
    ∀ (rs : List (Nat × Nat)) (i : Nat), (∀ r ∈ rs, r.1 ≤ r.2) →
      ∀ c ∈ silence_go minMs i rs,
        ∃ r ∈ rs, r.1 ≤ c.startMs ∧ c.startMs ≤ c.endMs ∧ c.endMs ≤ r.2 := by
  intro rs
  induction rs with
  | nil => intro i _ c hc; exact absurd hc (List.not_mem_nil c)
  | cons r rest ih =>
    intro i hwf c hc
    obtain ⟨s, e⟩ := r
    rw [silence_go] at hc
    rcases List.mem_append.mp hc with hseg | hrec
    · refine ⟨(s, e), List.mem_cons_self _ _, ?_⟩
      by_cases hshort : e - s < minMs
      · rw [if_pos hshort] at hseg
        exact absurd hseg (List.not_mem_nil c)
      · rw [if_neg hshort] at hseg
        by_cases hlong : MAX_CHUNK_SIZE_SECONDS * 1000 < e - s
        · rw [if_pos hlong] at hseg
          have hse : s ≤ e := by
            have : 0 < e - s := by
              have : (0 : Nat) < MAX_CHUNK_SIZE_SECONDS * 1000 := by
                norm_num [MAX_CHUNK_SIZE_SECONDS]
              omega
            omega
          have hb := stepChunks_mem (MAX_CHUNK_SIZE_SECONDS * 1000)
            (by norm_num [MAX_CHUNK_SIZE_SECONDS]) s (i * 100) 0 (e - s) c hseg
          refine ⟨by omega, by omega, by omega⟩
        · rw [if_neg hlong] at hseg
          rcases List.mem_singleton.mp hseg with rfl
          exact ⟨le_refl s, hwf (s, e) (List.mem_cons_self _ _), le_refl e⟩
    · obtain ⟨r', hr', hp⟩ := ih (i + 1)
        (fun r hr => hwf r (List.mem_cons_of_mem _ hr)) c hrec
      exact ⟨r', List.mem_cons_of_mem _ hr', hp⟩

theorem silence_go_chain (minMs : Nat) :
    ∀ (rs : List (Nat × Nat)) (i : Nat), (∀ r ∈ rs, r.1 ≤ r.2) →
      rs.Pairwise (fun x y => x.2 ≤ y.1) →
      List.Chain' (fun a b => a.endMs ≤ b.startMs) (silence_go minMs i rs) := by
  intro rs
  induction rs with
  | nil => intro i _ _; exact List.chain'_nil
  | cons r rest ih =>
    intro i hwf hpw
    obtain ⟨s, e⟩ := r
    have hwf' : ∀ r ∈ rest, r.1 ≤ r.2 := fun r hr => hwf r (List.mem_cons_of_mem _ hr)
    have hpw' : rest.Pairwise (fun x y => x.2 ≤ y.1) := (List.pairwise_cons.mp hpw).2
    have hafter : ∀ r ∈ rest, e ≤ r.1 := fun r hr => (List.pairwise_cons.mp hpw).1 r hr
    rw [silence_go]
    apply List.chain'_append.mpr
    refine ⟨?_, ih (i + 1) hwf' hpw', ?_⟩
    · by_cases hshort : e - s < minMs
      · rw [if_pos hshort]; exact List.chain'_nil
      · rw [if_neg hshort]
        by_cases hlong : MAX_CHUNK_SIZE_SECONDS * 1000 < e - s
        · rw [if_pos hlong]
          exact stepChunks_chain _ _ _ _ _ _
        · rw [if_neg hlong]
          exact List.chain'_singleton _
    · intro x hx y hy
      have hxe : x.endMs ≤ e := by
        by_cases hshort : e - s < minMs
        · rw [if_pos hshort] at hx
          simp at hx
        · rw [if_neg hshort] at hx
          by_cases hlong : MAX_CHUNK_SIZE_SECONDS * 1000 < e - s
          · rw [if_pos hlong] at hx
            have hxm := List.mem_of_mem_getLast? hx
            have hse : s ≤ e := by
              have : (0 : Nat) < MAX_CHUNK_SIZE_SECONDS * 1000 := by
                norm_num [MAX_CHUNK_SIZE_SECONDS]
              omega
            have hb := stepChunks_mem (MAX_CHUNK_SIZE_SECONDS * 1000)
              (by norm_num [MAX_CHUNK_SIZE_SECONDS]) s (i * 100) 0 (e - s) x hxm
            omega
          · rw [if_neg hlong] at hx
            have hxm := List.mem_of_mem_getLast? hx
            rcases List.mem_singleton.mp hxm with rfl
            exact le_refl e
      have hys : e ≤ y.startMs := by
        have hym := List.mem_of_mem_head? hy
        obtain ⟨r', hr', hp⟩ := silence_go_mem minMs rest (i + 1) hwf' y hym
        exact le_trans (hafter r' hr') hp.1
      exact le_trans hxe hys

/-- C1 counterexample: for the non-silent candidate regions (0 s, 1 s) and
(2 s, 10 s), the worker's silence chunker skips the first (shorter than the
5 s minimum) but keeps the enumeration index of the second, producing a
single chunk (chunks_total = 1) whose index is 1, not 0: indices do not
cover the interval from 0 to chunks_total. -/
theorem c1_index_gap_counterexample :
    (chunk_by_silence [(0, 1000), (2000, 10000)]).length = 1 ∧
    (chunk_by_silence [(0, 1000), (2000, 10000)]).map (fun c => c.chunk_index) = [1] ∧
    (1 : Nat) ≠ 0 :=
  ⟨by decide, by decide, by decide⟩

/-- C1 (amended): for well-formed candidate regions (each start at most its
end, regions sorted and disjoint) the chunker output of either strategy has
non-decreasing timestamps — every chunk's start is at most its end and each
chunk's end is at most the next chunk's start; the fixed-duration strategy
additionally indexes its chunks exactly 0, 1, …, N−1, but the silence-based
strategy keeps the candidate enumeration index (gaps where short candidates
were skipped, and offset i·100 indices for split sub-chunks), so its indices
need not cover the interval from 0 to chunks_total. -/
theorem c1_timestamps_monotone_amended :
    (∀ rs : List (Nat × Nat), (∀ r ∈ rs, r.1 ≤ r.2) →
      rs.Pairwise (fun x y => x.2 ≤ y.1) →
      (∀ c ∈ chunk_by_silence rs, c.startMs ≤ c.endMs) ∧
      List.Chain' (fun a b => a.endMs ≤ b.startMs) (chunk_by_silence rs)) ∧
    (∀ (audioLenMs d : Nat) (h : 0 < d),
      (∀ c ∈ chunk_fixed_duration audioLenMs d h, c.startMs ≤ c.endMs) ∧
      List.Chain' (fun a b => a.endMs ≤ b.startMs) (chunk_fixed_duration audioLenMs d h) ∧
      (chunk_fixed_duration audioLenMs d h).map (fun c => c.chunk_index) =
        List.range (chunk_fixed_duration audioLenMs d h).length) := by
  constructor
  · intro rs hwf hpw
    constructor
    · intro c hc
      obtain ⟨r', _, hp⟩ := silence_go_mem (MIN_CHUNK_SIZE_SECONDS * 1000) rs 0 hwf c hc
      exact hp.2.1
    · exact silence_go_chain (MIN_CHUNK_SIZE_SECONDS * 1000) rs 0 hwf hpw
  · intro audioLenMs d h
    refine ⟨?_, stepChunks_chain _ _ _ _ _ _, ?_⟩
    · intro c hc
      have := stepChunks_mem (d * 1000) (Nat.mul_pos h (by norm_num)) 0 0 0 audioLenMs c hc
      omega
    · rw [chunk_fixed_duration, stepChunks_indices, List.range_eq_range']

/-- C1 witness: the amended statement at concrete well-formed regions and a
concrete fixed-duration configuration. -/
theorem c1_timestamps_monotone_witness :
    ((∀ c ∈ chunk_by_silence [(0, 6000), (7000, 20000)], c.startMs ≤ c.endMs) ∧
      List.Chain' (fun a b => a.endMs ≤ b.startMs)
        (chunk_by_silence [(0, 6000), (7000, 20000)])) ∧
    (chunk_fixed_duration 31000 30 (by norm_num)).map (fun c => c.chunk_index) =
      List.range (chunk_fixed_duration 31000 30 (by norm_num)).length := by
  have h := c1_timestamps_monotone_amended
  exact ⟨h.1 [(0, 6000), (7000, 20000)] (by decide) (by decide),
    (h.2 31000 30 (by norm_num)).2.2⟩

/-- Number of positions at which `pat` occurs as a contiguous substring of
`s` (used to state how many times a chunk text appears in a merge result). -/
def occ_count (pat s : List Char) : Nat :=
  ((List.range (s.length + 1)).filter (fun i => pat.isPrefixOf (s.drop i))).length

/-- C3 counterexample: with prev = "0123456789" and next = prev ++ prev,
next begins with a copy of prev's last L = 10 characters, yet the merge of
the two chunks contains prev twice, not exactly once — the overlap removal
drops only one copy and the other remains. -/
theorem c3_contains_twice_counterexample :
    merge_chunks
      [{ chunk_index := 0, startMs := 0, endMs := 1000,
         transcription := some "0123456789".data,
         status := JobStatus.COMPLETED, error_message := none },
       { chunk_index := 1, startMs := 1000, endMs := 2000,
         transcription := some "01234567890123456789".data,
         status := JobStatus.COMPLETED, error_message := none }] =
      "0123456789 0123456789".data ∧
    occ_count "0123456789".data "0123456789 0123456789".data = 2 ∧
    (2 : Nat) ≠ 1 := by
  refine ⟨?_, by decide, by decide⟩
  have hsort : sort_chunks
      [{ chunk_index := 0, startMs := 0, endMs := 1000,
         transcription := some "0123456789".data,
         status := JobStatus.COMPLETED, error_message := none },
       { chunk_index := 1, startMs := 1000, endMs := 2000,
         transcription := some "01234567890123456789".data,
         status := JobStatus.COMPLETED, error_message := none }] =
      [{ chunk_index := 0, startMs := 0, endMs := 1000,
         transcription := some "0123456789".data,
         status := JobStatus.COMPLETED, error_message := none },
       { chunk_index := 1, startMs := 1000, endMs := 2000,
         transcription := some "01234567890123456789".data,
         status := JobStatus.COMPLETED, error_message := none }] :=
    List.mergeSort_of_sorted (by decide)
  rw [merge_chunks, hsort]
  decide

theorem find_overlap_down_spec (t1 t2 : List Char) (minO : Nat) :
    ∀ L : Nat,
      (find_overlap_down t1 t2 minO L = 0 ∨
        (minO ≤ find_overlap_down t1 t2 minO L ∧ find_overlap_down t1 t2 minO L ≤ L ∧
          overlap_match t1 t2 (find_overlap_down t1 t2 minO L) = true)) ∧
      (∀ M, minO ≤ M → M ≤ L → overlap_match t1 t2 M = true →
        M ≤ find_overlap_down t1 t2 minO L) := by
  intro L
  induction L with
  | zero =>
    refine ⟨Or.inl rfl, ?_⟩
    intro M _ h2 _
    simpa [find_overlap_down] using h2
  | succ L ih =>
    by_cases h1 : L + 1 < minO
    · rw [find_overlap_down, if_pos h1]
      refine ⟨Or.inl rfl, ?_⟩
      intro M hm1 hm2 _
      omega
    · by_cases h2 : overlap_match t1 t2 (L + 1) = true
      · rw [find_overlap_down, if_neg h1, if_pos h2]
        refine ⟨Or.inr ⟨by omega, le_refl _, h2⟩, ?_⟩
        intro M _ hm2 _
        exact hm2
      · rw [find_overlap_down, if_neg h1, if_neg h2]
        refine ⟨?_, ?_⟩
        · rcases ih.1 with h | ⟨ha, hb, hc⟩
          · exact Or.inl h
          · exact Or.inr ⟨ha, by omega, hc⟩
        intro M hm1 hm2 hm3
        have hmL : M ≤ L := by
          rcases Nat.lt_or_ge M (L + 1) with h | h
          · omega
          · exfalso
            have : M = L + 1 := by omega
            rw [this] at hm3
            exact h2 hm3
        exact ih.2 M hm1 hmL hm3

/-- C3 (amended): the merger finds the longest L in [10, min(len prev,
len next, 100)] whose case-insensitive suffix/prefix comparison succeeds and
drops that L-character prefix from next before concatenating; consequently,
when next begins with a copy of prev's last L ≥ 10 characters
(case-insensitive), the merge of [prev, next] begins with prev (so contains
it at least once, though possibly more than once) and has length
len prev + len next − L* or one more for an inserted separator space, where
L* ≥ L is the longest matching overlap. -/
theorem c3_overlap_merge_amended (a b : List Char) (L : Nat)
    (h10 : 10 ≤ L) (hle : L ≤ min (min a.length b.length) 100)
    (hm : overlap_match a b L = true) :
    L ≤ find_overlap a b 10 ∧
    overlap_match a b (find_overlap a b 10) = true ∧
    (∀ M, find_overlap a b 10 < M → M ≤ min (min a.length b.length) 100 →
      overlap_match a b M = false) ∧
    (∃ t : List Char, merge_with_overlap_removal [a, b] = a ++ t) ∧
    ((merge_with_overlap_removal [a, b]).length =
        a.length + (b.length - find_overlap a b 10) ∨
      (merge_with_overlap_removal [a, b]).length =
        a.length + (b.length - find_overlap a b 10) + 1) := by
  have hspec := find_overlap_down_spec a b 10 (min (min a.length b.length) 100)
  have hLr : L ≤ find_overlap a b 10 := hspec.2 L h10 hle hm
  have hr_match : overlap_match a b (find_overlap a b 10) = true := by
    rcases hspec.1 with h0 | hs
    · rw [find_overlap] at hLr
      omega
    · exact hs.2.2
  have hmax : ∀ M, find_overlap a b 10 < M → M ≤ min (min a.length b.length) 100 →
      overlap_match a b M = false := by
    intro M hM1 hM2
    cases hM3 : overlap_match a b M with
    | false => rfl
    | true =>
      have := hspec.2 M (by omega) hM2 hM3
      rw [find_overlap] at hM1
      omega
  have hmerge : merge_with_overlap_removal [a, b] = merge_step a b := rfl
  rw [hmerge, merge_step]
  by_cases hcond : a ≠ [] ∧ b.drop (find_overlap a b 10) ≠ [] ∧
      a.getLast? ≠ some ' ' ∧ (b.drop (find_overlap a b 10)).head? ≠ some ' '
  · rw [if_pos hcond]
    refine ⟨hLr, hr_match, hmax, ⟨' ' :: b.drop (find_overlap a b 10), rfl⟩, Or.inr ?_⟩
    simp [List.length_append, List.length_drop]
    omega
  · rw [if_neg hcond]
    refine ⟨hLr, hr_match, hmax, ⟨b.drop (find_overlap a b 10), rfl⟩, Or.inl ?_⟩
    simp [List.length_append, List.length_drop]

/-- C3 witness: the amended statement at prev = "abcdefghij" and
next = "abcdefghijxyz" with L = 10. -/
theorem c3_overlap_merge_witness :
    10 ≤ find_overlap "abcdefghij".data "abcdefghijxyz".data 10 ∧
    (∃ t : List Char,
      merge_with_overlap_removal ["abcdefghij".data, "abcdefghijxyz".data] =
        "abcdefghij".data ++ t) := by
  have h := c3_overlap_merge_amended "abcdefghij".data "abcdefghijxyz".data 10
    (by decide) (by decide) (by decide)
  exact ⟨h.1, h.2.2.2.1⟩

/-- C4 counterexample: the worker chunker's minimum-duration constant is
MIN_CHUNK_SIZE_SECONDS = 5, not 2; and the fixed-duration strategy applies no
minimum at all — chunking 31 s of audio at 30 s windows emits a final chunk
of duration 1 s, below 2 s, refuting "every chunk in the chunker's output
has duration at least 2 s regardless of strategy". -/
theorem c4_min_duration_counterexample :
    MIN_CHUNK_SIZE_SECONDS = 5 ∧ MIN_CHUNK_SIZE_SECONDS ≠ 2 ∧
    chunk_fixed_duration 31000 30 (by norm_num) =
      [{ chunk_index := 0, startMs := 0, endMs := 30000 },
       { chunk_index := 1, startMs := 30000, endMs := 31000 }] ∧
    ((31000 : Nat) - 30000) < 2000 := by
  refine ⟨rfl, by decide, ?_, by decide⟩
  rw [chunk_fixed_duration]
  rw [stepChunks]; norm_num
  rw [stepChunks]; norm_num
  rw [stepChunks]; norm_num

/-- C4 (amended): the minimum-duration rule drops only silence-detected
candidate regions, before any splitting: a candidate shorter than the
threshold contributes no chunk (though it still advances the enumeration
index), and a kept unsplit candidate has duration at least the threshold.
The worker chunker's threshold is MIN_CHUNK_SIZE_SECONDS = 5 s, while the
speech2text pipeline chunker's default threshold is 2 s; the fixed-duration
strategy applies no minimum. -/
theorem c4_min_duration_amended :
    (∀ (minMs i s e : Nat) (rest : List (Nat × Nat)), e - s < minMs →
      silence_go minMs i ((s, e) :: rest) = silence_go minMs (i + 1) rest) ∧
    (∀ (minMs i s e : Nat) (rest : List (Nat × Nat)),
      ¬ e - s < minMs → ¬ MAX_CHUNK_SIZE_SECONDS * 1000 < e - s →
      silence_go minMs i ((s, e) :: rest) =
        { chunk_index := i, startMs := s, endMs := e } :: silence_go minMs (i + 1) rest ∧
      minMs ≤ e - s) ∧
    MIN_CHUNK_SIZE_SECONDS * 1000 = 5000 ∧
    s2t_min_chunk_ms = 2000 ∧
    chunk_by_silence = silence_go 5000 0 := by
  refine ⟨?_, ?_, rfl, rfl, rfl⟩
  · intro minMs i s e rest h
    simp only [silence_go]
    rw [if_pos h]
    rfl
  · intro minMs i s e rest h1 h2
    refine ⟨?_, by omega⟩
    simp only [silence_go]
    rw [if_neg h1, if_neg h2]
    rfl

/-- C4 witness: a 1 s candidate is skipped by the worker threshold while an
8 s candidate is kept whole. -/
theorem c4_min_duration_witness :
    silence_go 5000 0 [(0, 1000), (2000, 10000)] = silence_go 5000 1 [(2000, 10000)] ∧
    silence_go 5000 1 [(2000, 10000)] =
      [{ chunk_index := 1, startMs := 2000, endMs := 10000 }] := by
  have h := c4_min_duration_amended
  refine ⟨h.1 5000 0 0 1000 [(2000, 10000)] (by decide), ?_⟩
  have h2 := (h.2.1 5000 1 2000 10000 [] (by decide)
    (by norm_num [MAX_CHUNK_SIZE_SECONDS])).1
  rw [h2]
  rfl

/-- C5 counterexample: the worker chunker (src/worker/chunking.py) applies no
intro/outro trimming at all — a 7 s candidate starting at 0 s is emitted
unclipped and overlaps the first 5 seconds of the file. -/
theorem c5_no_trimming_counterexample :
    chunk_by_silence [(0, 7000)] = [{ chunk_index := 0, startMs := 0, endMs := 7000 }] ∧
    (0 : Nat) < 5000 :=
  ⟨by decide, by decide⟩

/-- C5 (amended): intro/outro trimming exists only in the speech2text
pipeline chunker's silence-based path (enabled by default via
settings.filter_intro_outro): candidate regions lying entirely within the
first or last five seconds are dropped, partially overlapping regions are
clipped to the zone boundary, and consequently every surviving region — and
every chunk the silence path then produces — lies within
[5 s, duration − 5 s].  The worker chunker cited by the spec performs no
trimming, and the fixed-duration path is not trimmed either. -/
theorem c5_intro_outro_amended (durMs : Nat) (_hdur : 10000 ≤ durMs)
    (ranges : List (Nat × Nat)) :
    (∀ r ∈ s2t_filter_intro_outro durMs ranges,
      5000 ≤ r.1 ∧ r.1 < r.2 ∧ r.2 ≤ durMs - 5000) ∧
    (∀ c ∈ s2t_chunk_by_silence true durMs ranges,
      5000 ≤ c.startMs ∧ c.startMs ≤ c.endMs ∧ c.endMs ≤ durMs - 5000) := by
  have hfilter : ∀ r ∈ s2t_filter_intro_outro durMs ranges,
      5000 ≤ r.1 ∧ r.1 < r.2 ∧ r.2 ≤ durMs - 5000 := by
    intro r hr
    simp only [s2t_filter_intro_outro, List.mem_filterMap] at hr
    obtain ⟨⟨s, e⟩, _, hf⟩ := hr
    simp only [] at hf
    split_ifs at hf with h1 h2 h3 h4 h5 h6 h7
    all_goals have heq := Option.some.inj hf
    all_goals rw [← heq]
    all_goals simp only []
    all_goals omega
  refine ⟨hfilter, ?_⟩
  intro c hc
  rw [s2t_chunk_by_silence, if_pos rfl] at hc
  obtain ⟨r, hrmem, hp⟩ := silence_go_mem s2t_min_chunk_ms
    (s2t_filter_intro_outro durMs ranges) 0
    (fun r hr => le_of_lt (hfilter r hr).2.1) c hc
  have hb := hfilter r hrmem
  exact ⟨le_trans hb.1 hp.1, hp.2.1, le_trans hp.2.2 hb.2.2⟩

/-- C5 witness: for a 90 s file, the candidate (1 s, 4 s) is dropped
(inside the intro), (3 s, 9 s) is clipped to (5 s, 9 s), and
(86 s, 89.5 s) is dropped (inside the outro); the produced chunk lies
within [5 s, 85 s]. -/
theorem c5_intro_outro_witness :
    s2t_chunk_by_silence true 90000 [(1000, 4000), (3000, 9000), (86000, 89500)] =
      [{ chunk_index := 0, startMs := 5000, endMs := 9000 }] ∧
    5000 ≤ 5000 ∧ (5000 : Nat) ≤ 9000 ∧ (9000 : Nat) ≤ 90000 - 5000 := by
  refine ⟨by decide, ?_⟩
  exact (c5_intro_outro_amended 90000 (by decide)
    [(1000, 4000), (3000, 9000), (86000, 89500)]).2
    { chunk_index := 0, startMs := 5000, endMs := 9000 } (by decide)

theorem retry_run_success (t : List Char) (ht : t ≠ []) :
    ∀ (pre : List AttemptResult) (rest : List AttemptResult) (idx : Nat)
      (lastExc : Option TranscribeError),
      (∀ x ∈ pre, x = AttemptResult.timeout ∨ x = AttemptResult.crash) →
      retry_run idx lastExc (pre ++ AttemptResult.success t :: rest) =
        (Except.ok t, (List.range' idx pre.length).map (fun j => 2 ^ j)) := by
  intro pre
  induction pre with
  | nil =>
    intro rest idx lastExc _
    cases rest with
    | nil => simp [retry_run, ht]
    | cons b bs => simp [retry_run, ht]
  | cons a pre ih =>
    intro rest idx lastExc hpre
    have ha := hpre a (List.mem_cons_self a pre)
    have hpre' : ∀ x ∈ pre, x = AttemptResult.timeout ∨ x = AttemptResult.crash :=
      fun x hx => hpre x (List.mem_cons_of_mem a hx)
    rcases hL : pre ++ AttemptResult.success t :: rest with _ | ⟨b, bs⟩
    · exact absurd hL (List.append_ne_nil_of_right_ne_nil pre (by simp))
    · have hrec : retry_run (idx + 1) (some TranscribeError.timeout) (b :: bs) =
          (Except.ok t, (List.range' (idx + 1) pre.length).map (fun j => 2 ^ j)) := by
        rw [← hL]; exact ih rest (idx + 1) _ hpre'
      have hrec2 : retry_run (idx + 1) (some TranscribeError.crash) (b :: bs) =
          (Except.ok t, (List.range' (idx + 1) pre.length).map (fun j => 2 ^ j)) := by
        rw [← hL]; exact ih rest (idx + 1) _ hpre'
      rcases ha with rfl | rfl
      · show retry_run idx lastExc (AttemptResult.timeout :: (pre ++ AttemptResult.success t :: rest)) = _
        rw [hL]
        rw [retry_run]
        rw [hrec]
        simp [List.range'_succ]
      · show retry_run idx lastExc (AttemptResult.crash :: (pre ++ AttemptResult.success t :: rest)) = _
        rw [hL]
        rw [retry_run]
        rw [hrec2]
        simp [List.range'_succ]

theorem retry_run_exhaust :
    ∀ (atts : List AttemptResult) (idx : Nat) (lastExc : Option TranscribeError),
      (∀ x ∈ atts, x = AttemptResult.timeout ∨ x = AttemptResult.crash) → atts ≠ [] →
      (∃ err, (retry_run idx lastExc atts).1 = Except.error err ∧
        (err = TranscribeError.timeout ∨ err = TranscribeError.crash)) ∧
      (retry_run idx lastExc atts).2 =
        (List.range' idx (atts.length - 1)).map (fun j => 2 ^ j) := by
  intro atts
  induction atts with
  | nil => intro idx lastExc _ hne; exact absurd rfl hne
  | cons a rest ih =>
    intro idx lastExc hall _
    have ha := hall a (List.mem_cons_self a rest)
    have hall' : ∀ x ∈ rest, x = AttemptResult.timeout ∨ x = AttemptResult.crash :=
      fun x hx => hall x (List.mem_cons_of_mem a hx)
    cases rest with
    | nil =>
      rcases ha with rfl | rfl
      · exact ⟨⟨TranscribeError.timeout, rfl, Or.inl rfl⟩, rfl⟩
      · exact ⟨⟨TranscribeError.crash, rfl, Or.inr rfl⟩, rfl⟩
    | cons b bs =>
      rcases ha with rfl | rfl
      · have hrec := ih (idx + 1) (some TranscribeError.timeout) hall' (by simp)
        rw [retry_run]
        refine ⟨⟨hrec.1.choose, hrec.1.choose_spec.1, hrec.1.choose_spec.2⟩, ?_⟩
        simp only [hrec.2, List.length_cons, Nat.add_sub_cancel]
        rw [List.range'_succ]
        simp
      · have hrec := ih (idx + 1) (some TranscribeError.crash) hall' (by simp)
        rw [retry_run]
        refine ⟨⟨hrec.1.choose, hrec.1.choose_spec.1, hrec.1.choose_spec.2⟩, ?_⟩
        simp only [hrec.2, List.length_cons, Nat.add_sub_cancel]
        rw [List.range'_succ]
        simp

theorem fan_out_processed_spec (m : Nat) (cjs : List ChunkJob) :
    ∀ st : FanOutState,
      ∀ c ∈ (cjs.foldl (fan_out_step m) st).processed,
        c ∈ st.processed ∨ c.status = JobStatus.COMPLETED ∨
          (c.status = JobStatus.FAILED ∧ c.error_message.isSome) := by
  induction cjs with
  | nil => intro st c hc; exact Or.inl hc
  | cons cj rest ih =>
    intro st c hc
    rcases ih (fan_out_step m st cj) c hc with hmem | hdone
    · rw [fan_out_step] at hmem
      cases hr : (transcribe_with_retry cj.attempts m).1 with
      | ok t =>
        rw [hr] at hmem
        rcases List.mem_append.mp hmem with h | h
        · exact Or.inl h
        · rcases List.mem_singleton.mp h with rfl
          exact Or.inr (Or.inl rfl)
      | error e =>
        rw [hr] at hmem
        rcases List.mem_append.mp hmem with h | h
        · exact Or.inl h
        · rcases List.mem_singleton.mp h with rfl
          exact Or.inr (Or.inr ⟨rfl, rfl⟩)
    · exact Or.inr hdone

/-- C6: a chunk whose transcription raises Timeout or Crashed is retried up
to max_retries attempts with exponential backoff (sleeping 2^attempt between
attempts); a chunk that exhausts its retries fails with the last timeout or
crash error and is marked FAILED within the job without failing the job —
the fan-out continues with remaining chunks — and the orchestrator raises
the permanent AllChunksFailed error exactly when no chunk succeeded. -/
theorem c6_retry_and_containment :
    (∀ (pre post : List AttemptResult) (t : List Char) (m : Nat),
      (∀ x ∈ pre, x = AttemptResult.timeout ∨ x = AttemptResult.crash) →
      t ≠ [] → pre.length + 1 ≤ m →
      transcribe_with_retry (pre ++ AttemptResult.success t :: post) m =
        (Except.ok t, (List.range pre.length).map (fun j => 2 ^ j))) ∧
    (∀ (atts : List AttemptResult) (m : Nat),
      (∀ x ∈ atts, x = AttemptResult.timeout ∨ x = AttemptResult.crash) →
      atts.length = m → 1 ≤ m →
      (∃ err, (transcribe_with_retry atts m).1 = Except.error err ∧
        (err = TranscribeError.timeout ∨ err = TranscribeError.crash)) ∧
      (transcribe_with_retry atts m).2 =
        (List.range (m - 1)).map (fun j => 2 ^ j)) ∧
    (∀ (cjs : List ChunkJob) (m : Nat),
      (∀ c ∈ (fan_out cjs m).processed,
        c.status = JobStatus.COMPLETED ∨
          (c.status = JobStatus.FAILED ∧ c.error_message.isSome)) ∧
      ((∃ cj ∈ cjs, retry_ok cj m = true) →
        transcribe_chunks cjs m = Except.ok (fan_out cjs m)) ∧
      ((∀ cj ∈ cjs, retry_ok cj m = false) →
        transcribe_chunks cjs m = Except.error "All chunks failed to transcribe")) := by
  refine ⟨?_, ?_, ?_⟩
  · intro pre post t m hpre ht hm
    rw [transcribe_with_retry]
    have htake : (pre ++ AttemptResult.success t :: post).take m =
        pre ++ AttemptResult.success t :: post.take (m - pre.length - 1) := by
      rw [List.take_append_eq_append_take]
      rw [List.take_of_length_le (by omega)]
      congr 1
      obtain ⟨k, hk⟩ : ∃ k, m - pre.length = k + 1 := ⟨m - pre.length - 1, by omega⟩
      rw [hk, List.take_succ_cons]
      simp
    rw [htake, retry_run_success t ht pre _ 0 none hpre, List.range_eq_range']
  · intro atts m hall hlen hm
    rw [transcribe_with_retry, List.take_of_length_le (by omega)]
    have hne : atts ≠ [] := by
      intro h
      subst h
      simp at hlen
      omega
    have h := retry_run_exhaust atts 0 none hall hne
    rw [List.range_eq_range']
    rw [← hlen]
    exact h
  · intro cjs m
    refine ⟨?_, ?_, ?_⟩
    · intro c hc
      rcases fan_out_processed_spec m cjs ⟨[], [], []⟩ c hc with h | h
      · exact absurd h (List.not_mem_nil c)
      · exact h
    · intro ⟨cj, hcm, hok⟩
      have hcount : 0 < cjs.countP (fun cj => retry_ok cj m) :=
        List.countP_pos_iff.mpr ⟨cj, hcm, by simpa using hok⟩
      have hlen : (fan_out cjs m).transcribed.length =
          cjs.countP (fun cj => retry_ok cj m) := by
        have := (fan_out_go_spec m cjs ⟨[], [], []⟩).1
        rw [fan_out]
        simpa using this
      rw [transcribe_chunks]
      rw [if_neg ?_]
      intro hemp
      rw [List.isEmpty_iff_length_eq_zero] at hemp
      omega
    · intro hfail
      have hcount : cjs.countP (fun cj => retry_ok cj m) = 0 :=
        List.countP_eq_zero.mpr (fun cj hcj => by simpa using hfail cj hcj)
      have hlen : (fan_out cjs m).transcribed.length =
          cjs.countP (fun cj => retry_ok cj m) := by
        have := (fan_out_go_spec m cjs ⟨[], [], []⟩).1
        rw [fan_out]
        simpa using this
      rw [transcribe_chunks]
      rw [if_pos ?_]
      rw [List.isEmpty_iff_length_eq_zero]
      omega

/-- C6 witness: one timeout then a successful attempt yields the text after
one backoff sleep of one second; a chunk succeeding next to an exhausted
chunk keeps the job alive, and a job whose only chunk exhausts all three
attempts raises AllChunksFailed. -/
theorem c6_retry_and_containment_witness :
    transcribe_with_retry [AttemptResult.timeout, AttemptResult.success ['o', 'k']] 3 =
      (Except.ok ['o', 'k'], [1]) ∧
    transcribe_chunks
      [{ chunk := { chunk_index := 0, startMs := 0, endMs := 1000, transcription := none,
                    status := JobStatus.PENDING, error_message := none },
         attempts := [AttemptResult.success ['o', 'k']] }] 3 =
      Except.ok (fan_out
        [{ chunk := { chunk_index := 0, startMs := 0, endMs := 1000, transcription := none,
                      status := JobStatus.PENDING, error_message := none },
           attempts := [AttemptResult.success ['o', 'k']] }] 3) ∧
    transcribe_chunks
      [{ chunk := { chunk_index := 0, startMs := 0, endMs := 1000, transcription := none,
                    status := JobStatus.PENDING, error_message := none },
         attempts := [AttemptResult.timeout, AttemptResult.timeout, AttemptResult.timeout] }] 3 =
      Except.error "All chunks failed to transcribe" := by
  have h := c6_retry_and_containment
  refine ⟨?_, ?_, ?_⟩
  · have h1 := h.1 [AttemptResult.timeout] [] ['o', 'k'] 3
      (by intro x hx; rcases List.mem_singleton.mp hx with rfl; exact Or.inl rfl)
      (by decide) (by decide)
    simpa using h1
  · exact (h.2.2 _ 3).2.1 ⟨_, List.mem_singleton.mpr rfl, by decide⟩
  · exact (h.2.2 _ 3).2.2 (by intro cj hcj; rcases List.mem_singleton.mp hcj with rfl; decide)
